import Mathlib

/-!
Shallow embedding of the core of the exonum-anchoring service, translated
from the repository sources:

  * src/lib.rs             - majority_count
  * src/blockchain/schema.rs - AnchoringSchema (lects, known_txs,
    lect_indexes, signatures, known_signatures), add_lect,
    add_known_signature, collect_lects, StorageKey for KnownSignatureId
  * src/handler/basic.rs   - AnchoringHandler::current_state (lect-less
    branch), AnchoringHandler::collect_lects
  * src/handler.rs         - SyncWithBtcRelayTask
  * src/service.rs         - handle_commit error absorption
  * src/details/error.rs   - builder error type

Storage indexes (MapIndex, ListIndex, ProofListIndex) are modelled as
association lists and plain lists; machine integers as Nat.
-/

set_option maxHeartbeats 1000000

/-! ### Association-list model of `MapIndex` -/

/-- Lookup in an association list, the model of `MapIndex::get`. -/
def mget {K V : Type} [DecidableEq K] (m : List (K × V)) (k : K) : Option V :=
  match m with
  | [] => none
  | (k0, v0) :: rest => if k0 = k then some v0 else mget rest k

/-- Insert-or-replace in an association list, the model of `MapIndex::put`. -/
def mput {K V : Type} [DecidableEq K] (m : List (K × V)) (k : K) (v : V) :
    List (K × V) :=
  match m with
  | [] => [(k, v)]
  | (k0, v0) :: rest => if k0 = k then (k, v) :: rest else (k0, v0) :: mput rest k v

theorem mget_mput_same {K V : Type} [DecidableEq K] (m : List (K × V)) (k : K) (v : V) :
    mget (mput m k v) k = some v := by
  induction m with
  | nil => simp [mget, mput]
  | cons hd tl ih =>
    obtain ⟨k0, v0⟩ := hd
    by_cases h : k0 = k
    · simp [mget, mput, h]
    · simp [mget, mput, h, ih]

theorem mget_mput_other {K V : Type} [DecidableEq K] (m : List (K × V)) (k k' : K)
    (v : V) (hne : k' ≠ k) : mget (mput m k v) k' = mget m k' := by
  have hk : ¬k = k' := fun h => hne h.symm
  induction m with
  | nil => simp [mget, mput, hk]
  | cons hd tl ih =>
    obtain ⟨k0, v0⟩ := hd
    by_cases h : k0 = k
    · subst h
      simp [mget, mput, hk]
    · simp [mget, mput, h, ih]

/-! ### Bitcoin transaction model

`details/btc/transactions.rs` is not among the given sources; the parts of
it the schema relies on are modelled here.  A raw Bitcoin transaction is
abstracted by the data that the schema compares and hashes: its normalized
content (the transaction with input scripts cleared) and the input-script
data.  Both identifiers are injective functions of the serialized bytes;
hash collisions are assumed away. -/

/-- A raw Bitcoin transaction (`BitcoinTx`), abstracted to its normalized
content and its input-script (signature) data. -/
structure BitcoinTx where
  content : Nat
  sigdata : Nat
  deriving DecidableEq, Repr

/-- Transaction identifiers; a txid determines the transaction bytes. -/
abbrev TxId := Nat

/-- Modelled from the spec: `BitcoinTx::id` is the transaction hash, an
injective function of the whole serialized transaction. -/
def BitcoinTx.id (t : BitcoinTx) : TxId :=
  Nat.pair t.content t.sigdata

/-- Modelled from the spec: `BitcoinTx::nid` is the normalized transaction
id, the hash of the transaction with input scripts cleared, hence an
injective function of the normalized content alone. -/
def BitcoinTx.nid (t : BitcoinTx) : TxId :=
  Nat.pair t.content 0

/-- Validator anchoring public keys (`btc::PublicKey`). -/
abbrev PublicKey := Nat

/-- Exonum message hashes (`exonum::crypto::Hash`). -/
abbrev Hash := Nat

/-- `LectContent`: the pair of the hash of the exonum message that
delivered the lect and the lect transaction itself (blockchain/dto.rs). -/
structure LectContent where
  msg_hash : Hash
  tx : BitcoinTx
  deriving DecidableEq, Repr

/-- `MsgAnchoringSignature` (blockchain/dto.rs, not among the given
sources): the anchoring transaction being signed, the id of the signing
validator, the input index, and the signature bytes. -/
structure MsgAnchoringSignature where
  tx : BitcoinTx
  validator : Nat
  input : Nat
  signature : Nat
  deriving DecidableEq, Repr

/-- `KnownSignatureId` (blockchain/schema.rs): a signature contribution is
identified by the normalized txid, the validator id and the input index. -/
structure KnownSignatureId where
  txid : TxId
  validator_id : Nat
  input : Nat
  deriving DecidableEq, Repr

/-- `KnownSignatureId::from(&MsgAnchoringSignature)` (blockchain/schema.rs). -/
def knownSignatureIdOf (msg : MsgAnchoringSignature) : KnownSignatureId :=
  { txid := msg.tx.nid, validator_id := msg.validator, input := msg.input }

/-- The validation error returned by `add_known_signature`
(blockchain/mod.rs `Error::SignatureDifferent`). -/
inductive ValidateError where
  | signatureDifferent
  deriving DecidableEq, Repr

/-! ### Anchoring schema state (blockchain/schema.rs)

Each persistent index of `AnchoringSchema` becomes one field.  Per-family
indexes (`new_in_family`) become association lists keyed by the family
key; a family that was never written is the empty list/table. -/

/-- The persistent state of `AnchoringSchema`. -/
structure SchemaState where
  /-- `btc_anchoring.lects`: per validator key, the ordered lect list. -/
  lects_table : List (PublicKey × List LectContent)
  /-- `btc_anchoring.known_txs`: every known transaction by txid. -/
  known_txs : List (TxId × BitcoinTx)
  /-- `btc_anchoring.lect_indexes`: per validator key, lect position by txid. -/
  lect_indexes_table : List (PublicKey × List (TxId × Nat))
  /-- `btc_anchoring.signatures`: per normalized txid, the signature list. -/
  signatures_table : List (TxId × List MsgAnchoringSignature)
  /-- `btc_anchoring.known_signatures`: signatures by `KnownSignatureId`. -/
  known_signatures : List (KnownSignatureId × MsgAnchoringSignature)
  deriving DecidableEq, Repr

/-- `AnchoringSchema::lects(validator_key)` as a list. -/
def lectsOf (s : SchemaState) (k : PublicKey) : List LectContent :=
  (mget s.lects_table k).getD []

/-- `AnchoringSchema::lect_indexes(validator_key)` as an association list. -/
def lectIndexesOf (s : SchemaState) (k : PublicKey) : List (TxId × Nat) :=
  (mget s.lect_indexes_table k).getD []

/-- `AnchoringSchema::signatures(txid)` as a list. -/
def signaturesOf (s : SchemaState) (txid : TxId) : List MsgAnchoringSignature :=
  (mget s.signatures_table txid).getD []

/-- `AnchoringSchema::lect`: the last element of the lect list of the
given validator, projected to the transaction. -/
def lect (s : SchemaState) (k : PublicKey) : Option BitcoinTx :=
  (lectsOf s k).getLast?.map (·.tx)

/-- `AnchoringSchema::add_lect` (blockchain/schema.rs lines 313-328):
push `LectContent::new(&msg_hash, tx)` onto the lect list of the
validator, record the transaction in `known_txs` under its txid, and
record the index of the new entry in `lect_indexes` under the txid. -/
def add_lect (s : SchemaState) (k : PublicKey) (tx : BitcoinTx) (msg_hash : Hash) :
    SchemaState :=
  let idx := (lectsOf s k).length
  let txid := tx.id
  { s with
    lects_table := mput s.lects_table k (lectsOf s k ++ [⟨msg_hash, tx⟩])
    known_txs := mput s.known_txs txid tx
    lect_indexes_table :=
      mput s.lect_indexes_table k (mput (lectIndexesOf s k) txid idx) }

/-- `AnchoringSchema::add_known_signature` (blockchain/schema.rs lines
331-341): if the `KnownSignatureId` of the message is already present the
schema is left unchanged and `Err(SignatureDifferent)` is returned,
otherwise the message is appended to the signature list of its normalized
txid and recorded in `known_signatures`. -/
def add_known_signature (s : SchemaState) (msg : MsgAnchoringSignature) :
    Except ValidateError Unit × SchemaState :=
  let ntxid := msg.tx.nid
  let signature_id := knownSignatureIdOf msg
  if (mget s.known_signatures signature_id).isSome then
    (Except.error ValidateError.signatureDifferent, s)
  else
    (Except.ok (),
      { s with
        signatures_table :=
          mput s.signatures_table ntxid (signaturesOf s ntxid ++ [msg])
        known_signatures := mput s.known_signatures signature_id msg })

/-! ### majority_count and the anchoring configuration -/

/-- `majority_count` (src/lib.rs lines 116-119): `cnt * 2 / 3 + 1`
computed on `u8`.  The argument ranges over the u8 domain (`cnt < 256`);
the product `cnt * 2` wraps modulo 2^8 (release-build overflow
semantics), which matters for `cnt >= 128`; the subsequent truncating
division and increment stay below 256, so no further reduction is
needed. -/
def majority_count (cnt : Nat) : Nat :=
  cnt * 2 % 256 / 3 + 1

/-- `AnchoringConfig` restricted to the data the verified paths read: the
ordered validator anchoring keys, and the derived anchoring address and
its script (redeem_script().1 and its script_pubkey, abstracted as
numbers). -/
structure AnchoringConfig where
  anchoring_keys : List PublicKey
  addr : Nat
  addr_script_pubkey : Nat
  deriving DecidableEq, Repr

/-- Modelled from the spec: `AnchoringConfig::majority_count`
(blockchain/consensus_storage.rs is not among the given sources) is the
quorum threshold for `N` the number of anchoring keys, per the spec's
formula `majority_count(N) = N*2/3 + 1` (the rounding behind its
`⌈2N/3⌉` wording), taken at face value as arithmetic on the validator
count. -/
def AnchoringConfig.majorityCount (cfg : AnchoringConfig) : Nat :=
  cfg.anchoring_keys.length * 2 / 3 + 1

/-! ### collect_lects (blockchain/schema.rs lines 188-212)

The Rust code tallies, in a `HashMap` keyed by the raw transaction
(`last_lect.0`), how many validators of the configuration currently
report each transaction as their lect, then takes `max_by_key` over the
map iteration and compares the winning count against
`cfg.majority_count()`.  The multiset of `(transaction, count)` entries of
the map is deterministic; the iteration order is not.  We therefore build
the entry list deterministically (`lectTally`, in first-vote order) and
run the maximum selection over an arbitrary permutation of it. -/

/-- One tally step: the `lects.entry(last_lect.0)` match, incrementing an
existing count or inserting the count 1. -/
def bump (acc : List (BitcoinTx × Nat)) (t : BitcoinTx) : List (BitcoinTx × Nat) :=
  match acc with
  | [] => [(t, 1)]
  | (u, c) :: rest => if u = t then (u, c + 1) :: rest else (u, c) :: bump rest t

/-- The tally fold of `collect_lects` over the configuration keys: for
each anchoring key that has a lect, count its lect transaction (content
comparison). -/
def lectTally (keys : List PublicKey) (s : SchemaState) : List (BitcoinTx × Nat) :=
  keys.foldl
    (fun acc k =>
      match lect s k with
      | some t => bump acc t
      | none => acc)
    []

/-- Rust `Iterator::max_by_key` over the entry list: the maximal count,
with the later of two equal counts preferred. -/
def max_by_count (l : List (BitcoinTx × Nat)) : Option (BitcoinTx × Nat) :=
  l.foldl
    (fun acc p =>
      match acc with
      | none => some p
      | some q => if q.2 ≤ p.2 then some p else some q)
    none

/-- `AnchoringSchema::collect_lects`, with the `HashMap` iteration order
made explicit as the entry list `order` (any permutation of the tally):
take the entry with the maximal count and return its transaction if the
count reaches `cfg.majority_count()`. -/
def collect_lects_with (cfg : AnchoringConfig) (order : List (BitcoinTx × Nat)) :
    Option BitcoinTx :=
  match max_by_count order with
  | some (t, count) => if cfg.majorityCount ≤ count then some t else none
  | none => none

/-- `AnchoringSchema::collect_lects` run on the canonical (first-vote)
iteration order. -/
def collect_lects (cfg : AnchoringConfig) (s : SchemaState) : Option BitcoinTx :=
  collect_lects_with cfg (lectTally cfg.anchoring_keys s)

/-- Number of validators of the configuration whose current lect is the
transaction `t` (content comparison, origin ignored). -/
def voteCount (keys : List PublicKey) (s : SchemaState) (t : BitcoinTx) : Nat :=
  (keys.filter (fun k => lect s k = some t)).length

/-! ### Lemmas about the lect tally -/

/-- Sum of the counts of a tally entry list. -/
def totalVotes (l : List (BitcoinTx × Nat)) : Nat :=
  (l.map Prod.snd).sum

theorem mget_bump_same (acc : List (BitcoinTx × Nat)) (t : BitcoinTx) :
    mget (bump acc t) t = some ((mget acc t).getD 0 + 1) := by
  induction acc with
  | nil => simp [bump, mget]
  | cons hd tl ih =>
    obtain ⟨u, c⟩ := hd
    by_cases h : u = t
    · subst h
      simp [bump, mget]
    · simp [bump, mget, h, ih]

theorem mget_bump_other (acc : List (BitcoinTx × Nat)) (t u : BitcoinTx)
    (hne : u ≠ t) : mget (bump acc t) u = mget acc u := by
  have ht : ¬t = u := fun h => hne h.symm
  induction acc with
  | nil => simp [bump, mget, ht]
  | cons hd tl ih =>
    obtain ⟨w, c⟩ := hd
    by_cases h : w = t
    · subst h
      simp [bump, mget, ht]
    · simp [bump, mget, h, ih]

theorem totalVotes_bump (acc : List (BitcoinTx × Nat)) (t : BitcoinTx) :
    totalVotes (bump acc t) = totalVotes acc + 1 := by
  induction acc with
  | nil => simp [bump, totalVotes]
  | cons hd tl ih =>
    obtain ⟨u, c⟩ := hd
    by_cases h : u = t
    · subst h
      simp [bump, totalVotes]
      omega
    · simp [bump, totalVotes, h] at ih ⊢
      omega

theorem keys_bump (acc : List (BitcoinTx × Nat)) (t : BitcoinTx) :
    (bump acc t).map Prod.fst = acc.map Prod.fst ∨
      (bump acc t).map Prod.fst = acc.map Prod.fst ++ [t] := by
  induction acc with
  | nil => simp [bump]
  | cons hd tl ih =>
    obtain ⟨u, c⟩ := hd
    by_cases h : u = t
    · subst h
      simp [bump]
    · rcases ih with ih | ih <;> simp [bump, h, ih]

theorem nodup_keys_bump (acc : List (BitcoinTx × Nat)) (t : BitcoinTx)
    (h : (acc.map Prod.fst).Nodup) : ((bump acc t).map Prod.fst).Nodup := by
  induction acc with
  | nil => simp [bump]
  | cons hd tl ih =>
    obtain ⟨u, c⟩ := hd
    simp only [List.map_cons, List.nodup_cons] at h
    by_cases he : u = t
    · have hb : bump ((u, c) :: tl) t = (u, c + 1) :: tl := by simp [bump, he]
      rw [hb]
      simp only [List.map_cons, List.nodup_cons]
      exact h
    · have htl := ih h.2
      have hb : bump ((u, c) :: tl) t = (u, c) :: bump tl t := by simp [bump, he]
      rw [hb]
      simp only [List.map_cons, List.nodup_cons]
      refine ⟨?_, htl⟩
      rcases keys_bump tl t with hk | hk
      · rw [hk]; exact h.1
      · rw [hk]
        intro hx
        rcases List.mem_append.mp hx with hx | hx
        · exact h.1 hx
        · simp at hx
          exact he hx

/-- Membership in an association list with nodup keys fixes the value. -/
theorem mem_eq_mget {V : Type} (l : List (BitcoinTx × V)) (t : BitcoinTx) (c : V)
    (hnd : (l.map Prod.fst).Nodup) (hmem : (t, c) ∈ l) : mget l t = some c := by
  induction l with
  | nil => simp at hmem
  | cons hd tl ih =>
    obtain ⟨u, d⟩ := hd
    simp at hnd
    rcases List.mem_cons.mp hmem with h | h
    · injection h with h1 h2
      subst h1
      subst h2
      simp [mget]
    · have : ¬u = t := by
        intro he
        subst he
        exact hnd.1 c (by simpa using h)
      simp [mget, this, ih hnd.2 h]

theorem mget_mem {V : Type} (l : List (BitcoinTx × V)) (t : BitcoinTx) (c : V)
    (h : mget l t = some c) : (t, c) ∈ l := by
  induction l with
  | nil => simp [mget] at h
  | cons hd tl ih =>
    obtain ⟨u, d⟩ := hd
    by_cases he : u = t
    · subst he
      simp [mget] at h
      simp [h]
    · simp [mget, he] at h
      exact List.mem_cons_of_mem _ (ih h)

theorem snd_le_totalVotes (l : List (BitcoinTx × Nat)) (p : BitcoinTx × Nat)
    (h : p ∈ l) : p.2 ≤ totalVotes l := by
  induction l with
  | nil => simp at h
  | cons hd tl ih =>
    rcases List.mem_cons.mp h with h | h
    · subst h
      simp [totalVotes]
    · have := ih h
      simp [totalVotes] at this ⊢
      omega

/-- Two distinct keys of an association list with nodup keys contribute
disjoint counts to the total. -/
theorem two_counts_le_total (l : List (BitcoinTx × Nat)) (t u : BitcoinTx)
    (c d : Nat) (hnd : (l.map Prod.fst).Nodup) (htu : t ≠ u)
    (ht : (t, c) ∈ l) (hu : (u, d) ∈ l) : c + d ≤ totalVotes l := by
  induction l with
  | nil => simp at ht
  | cons hd tl ih =>
    obtain ⟨w, e⟩ := hd
    simp only [List.map_cons, List.nodup_cons] at hnd
    rcases List.mem_cons.mp ht with h1 | h1
    · injection h1 with h1a h1b
      subst h1a
      subst h1b
      have hu' : (u, d) ∈ tl := by
        rcases List.mem_cons.mp hu with h2 | h2
        · injection h2 with h2a h2b
          exact absurd h2a (Ne.symm htu)
        · exact h2
      have hle := snd_le_totalVotes tl (u, d) hu'
      simp [totalVotes] at hle ⊢
      omega
    · rcases List.mem_cons.mp hu with h2 | h2
      · injection h2 with h2a h2b
        subst h2a
        subst h2b
        have hle := snd_le_totalVotes tl (t, c) h1
        simp [totalVotes] at hle ⊢
        omega
      · have hle := ih hnd.2 h1 h2
        simp [totalVotes] at hle ⊢
        omega

/-- The per-key tally step of `collect_lects`. -/
def tallyStep (s : SchemaState) (acc : List (BitcoinTx × Nat)) (k : PublicKey) :
    List (BitcoinTx × Nat) :=
  match lect s k with
  | some t => bump acc t
  | none => acc

theorem lectTally_eq_foldl (keys : List PublicKey) (s : SchemaState) :
    lectTally keys s = keys.foldl (tallyStep s) [] := by
  unfold lectTally tallyStep
  rfl

theorem tally_fold_count (keys : List PublicKey) (s : SchemaState) (t : BitcoinTx) :
    ∀ acc : List (BitcoinTx × Nat),
      (mget (keys.foldl (tallyStep s) acc) t).getD 0 =
        (mget acc t).getD 0 + voteCount keys s t := by
  induction keys with
  | nil => intro acc; simp [voteCount]
  | cons k keys ih =>
    intro acc
    have hvc : voteCount (k :: keys) s t =
        (if lect s k = some t then 1 else 0) + voteCount keys s t := by
      by_cases h : lect s k = some t
      · simp [voteCount, List.filter, h]
        omega
      · simp [voteCount, List.filter, h]
    rw [List.foldl_cons, ih, hvc]
    cases hl : lect s k with
    | none => simp [tallyStep, hl]
    | some w =>
      have hstep : tallyStep s acc k = bump acc w := by simp [tallyStep, hl]
      rw [hstep]
      by_cases hw : w = t
      · subst hw
        rw [mget_bump_same]
        simp [hl]
        omega
      · have hwt : t ≠ w := fun hh => hw hh.symm
        rw [mget_bump_other acc w t hwt]
        have hz : (if (some w : Option BitcoinTx) = some t then 1 else 0) = 0 := by
          simp [hw]
        rw [hz]
        omega

theorem mget_lectTally (keys : List PublicKey) (s : SchemaState) (t : BitcoinTx) :
    (mget (lectTally keys s) t).getD 0 = voteCount keys s t := by
  rw [lectTally_eq_foldl]
  simpa [mget] using tally_fold_count keys s t []

theorem tally_fold_total (keys : List PublicKey) (s : SchemaState) :
    ∀ acc : List (BitcoinTx × Nat),
      totalVotes (keys.foldl (tallyStep s) acc) ≤ totalVotes acc + keys.length := by
  induction keys with
  | nil => intro acc; simp
  | cons k keys ih =>
    intro acc
    rw [List.foldl_cons]
    refine (ih (tallyStep s acc k)).trans ?_
    cases hl : lect s k with
    | none => simp [tallyStep, hl]
    | some w =>
      simp [tallyStep, hl, totalVotes_bump]
      omega

theorem totalVotes_lectTally (keys : List PublicKey) (s : SchemaState) :
    totalVotes (lectTally keys s) ≤ keys.length := by
  rw [lectTally_eq_foldl]
  simpa [totalVotes] using tally_fold_total keys s []

theorem tally_fold_nodup (keys : List PublicKey) (s : SchemaState) :
    ∀ acc : List (BitcoinTx × Nat), (acc.map Prod.fst).Nodup →
      (((keys.foldl (tallyStep s) acc)).map Prod.fst).Nodup := by
  induction keys with
  | nil => intro acc h; simpa using h
  | cons k keys ih =>
    intro acc h
    rw [List.foldl_cons]
    refine ih (tallyStep s acc k) ?_
    cases hl : lect s k with
    | none => simpa [tallyStep, hl] using h
    | some w => simpa [tallyStep, hl] using nodup_keys_bump acc w h

theorem nodup_lectTally (keys : List PublicKey) (s : SchemaState) :
    ((lectTally keys s).map Prod.fst).Nodup := by
  rw [lectTally_eq_foldl]
  exact tally_fold_nodup keys s [] (by simp)

/-! ### Lemmas about the maximum selection -/

/-- The fold step of `max_by_count`. -/
def maxStep (acc : Option (BitcoinTx × Nat)) (p : BitcoinTx × Nat) :
    Option (BitcoinTx × Nat) :=
  match acc with
  | none => some p
  | some q => if q.2 ≤ p.2 then some p else some q

theorem max_by_count_eq_foldl (l : List (BitcoinTx × Nat)) :
    max_by_count l = l.foldl maxStep none := by
  unfold max_by_count maxStep
  rfl

theorem max_fold_aux (l : List (BitcoinTx × Nat)) :
    ∀ acc p, l.foldl maxStep acc = some p →
      (p ∈ l ∨ acc = some p) ∧ (∀ q ∈ l, q.2 ≤ p.2) ∧
        (∀ q, acc = some q → q.2 ≤ p.2) := by
  induction l with
  | nil =>
    intro acc p h
    simp at h
    refine ⟨Or.inr h, by simp, ?_⟩
    intro q hq
    rw [h] at hq
    injection hq with hq
    rw [hq]
  | cons hd tl ih =>
    intro acc p h
    rw [List.foldl_cons] at h
    obtain ⟨ih1, ih2, ih3⟩ := ih (maxStep acc hd) p h
    have hd_le : hd.2 ≤ p.2 := by
      cases acc with
      | none => exact ih3 hd rfl
      | some q0 =>
        by_cases hle : q0.2 ≤ hd.2
        · exact ih3 hd (by simp [maxStep, hle])
        · have hq0 := ih3 q0 (by simp [maxStep, hle])
          omega
    refine ⟨?_, ?_, ?_⟩
    · rcases ih1 with h1 | h1
      · exact Or.inl (List.mem_cons_of_mem _ h1)
      · cases acc with
        | none =>
          simp [maxStep] at h1
          exact Or.inl (h1 ▸ List.mem_cons_self hd tl)
        | some q0 =>
          by_cases hle : q0.2 ≤ hd.2
          · simp [maxStep, hle] at h1
            exact Or.inl (h1 ▸ List.mem_cons_self hd tl)
          · simp [maxStep, hle] at h1
            exact Or.inr (congrArg some h1)
    · intro q hq
      rcases List.mem_cons.mp hq with hq | hq
      · rw [hq]; exact hd_le
      · exact ih2 q hq
    · intro q hq
      subst hq
      cases' Classical.em (q.2 ≤ hd.2) with hle hle
      · omega
      · exact ih3 q (by simp [maxStep, hle])

theorem max_fold_isSome (l : List (BitcoinTx × Nat)) :
    ∀ acc : Option (BitcoinTx × Nat), acc.isSome → (l.foldl maxStep acc).isSome := by
  induction l with
  | nil => intro acc h; simpa using h
  | cons hd tl ih =>
    intro acc h
    rw [List.foldl_cons]
    apply ih
    cases acc with
    | none => simp [maxStep]
    | some q => by_cases hq : q.2 ≤ hd.2 <;> simp [maxStep, hq]

theorem max_by_count_isSome (l : List (BitcoinTx × Nat)) (h : l ≠ []) :
    (max_by_count l).isSome := by
  cases l with
  | nil => exact absurd rfl h
  | cons hd tl =>
    rw [max_by_count_eq_foldl, List.foldl_cons]
    exact max_fold_isSome tl (maxStep none hd) (by simp [maxStep])

/-- The quorum threshold `N*2/3 + 1` always exceeds half of the
validator count. -/
theorem lt_two_mul_majority (n : Nat) : n < 2 * (n * 2 / 3 + 1) := by
  omega

/-- Central characterization of `collect_lects`: for any iteration order of
the vote map, the result is `some tx` exactly when `tx` is the current lect
of at least `majority_count` of the configured validators. -/
theorem collect_lects_votes_iff (cfg : AnchoringConfig) (s : SchemaState)
    (order : List (BitcoinTx × Nat)) (tx : BitcoinTx)
    (hperm : order.Perm (lectTally cfg.anchoring_keys s)) :
    collect_lects_with cfg order = some tx ↔
      cfg.majorityCount ≤ voteCount cfg.anchoring_keys s tx := by
  have hnodup := nodup_lectTally cfg.anchoring_keys s
  constructor
  · intro h
    unfold collect_lects_with at h
    cases hmax : max_by_count order with
    | none => rw [hmax] at h; simp at h
    | some p =>
      obtain ⟨u, c⟩ := p
      rw [hmax] at h
      by_cases hm : cfg.majorityCount ≤ c
      · simp only [hm, if_pos] at h
        injection h with h
        subst h
        have haux := max_fold_aux order none (u, c)
          (by rw [← max_by_count_eq_foldl]; exact hmax)
        have hmem : (u, c) ∈ order := by
          rcases haux.1 with h1 | h1
          · exact h1
          · simp at h1
        have hmemT : (u, c) ∈ lectTally cfg.anchoring_keys s := hperm.mem_iff.mp hmem
        have hget := mem_eq_mget _ u c hnodup hmemT
        have hcnt := mget_lectTally cfg.anchoring_keys s u
        rw [hget] at hcnt
        simp at hcnt
        omega
      · simp [hm] at h
  · intro h
    have hm1 : 1 ≤ cfg.majorityCount := by
      unfold AnchoringConfig.majorityCount
      omega
    have hvc : mget (lectTally cfg.anchoring_keys s) tx =
        some (voteCount cfg.anchoring_keys s tx) := by
      have h0 := mget_lectTally cfg.anchoring_keys s tx
      cases hg : mget (lectTally cfg.anchoring_keys s) tx with
      | none =>
        rw [hg] at h0
        simp at h0
        omega
      | some c =>
        rw [hg] at h0
        simp at h0
        rw [h0]
    have hmemT := mget_mem _ tx (voteCount cfg.anchoring_keys s tx) hvc
    have hmemO : (tx, voteCount cfg.anchoring_keys s tx) ∈ order :=
      hperm.mem_iff.mpr hmemT
    have hne : order ≠ [] := by
      intro h0
      rw [h0] at hmemO
      simp at hmemO
    obtain ⟨p, hmax⟩ : ∃ p, max_by_count order = some p := by
      cases hmb : max_by_count order with
      | none =>
        have := max_by_count_isSome order hne
        rw [hmb] at this
        simp at this
      | some p => exact ⟨p, rfl⟩
    obtain ⟨u, c⟩ := p
    have haux := max_fold_aux order none (u, c)
      (by rw [← max_by_count_eq_foldl]; exact hmax)
    have hmemU : (u, c) ∈ order := by
      rcases haux.1 with h1 | h1
      · exact h1
      · simp at h1
    have hcge : voteCount cfg.anchoring_keys s tx ≤ c :=
      haux.2.1 (tx, voteCount cfg.anchoring_keys s tx) hmemO
    have hmemUT : (u, c) ∈ lectTally cfg.anchoring_keys s := hperm.mem_iff.mp hmemU
    have hgetU := mem_eq_mget _ u c hnodup hmemUT
    have hcu := mget_lectTally cfg.anchoring_keys s u
    rw [hgetU] at hcu
    simp at hcu
    by_cases hut : u = tx
    · subst hut
      unfold collect_lects_with
      rw [hmax]
      have hm : cfg.majorityCount ≤ c := le_trans h hcge
      simp [hm]
    · exfalso
      have h2 := two_counts_le_total (lectTally cfg.anchoring_keys s) u tx c
        (voteCount cfg.anchoring_keys s tx) hnodup hut hmemUT hmemT
      have htot := totalVotes_lectTally cfg.anchoring_keys s
      have hlt := lt_two_mul_majority cfg.anchoring_keys.length
      have hmaj : cfg.majorityCount = cfg.anchoring_keys.length * 2 / 3 + 1 := rfl
      omega

/-! ### StorageKey encoding of KnownSignatureId (blockchain/schema.rs lines 43-64) -/

/-- `KnownSignatureId` with the transaction id in byte form (the 32 raw
bytes of `btc::TxId`), as seen by the `StorageKey` implementation. -/
structure KnownSignatureIdBytes where
  txid : List Nat
  validator_id : Nat
  input : Nat
  deriving DecidableEq, Repr

/-- `StorageKey::size`: `self.txid.size() + 6`. -/
def storage_key_size (id : KnownSignatureIdBytes) : Nat :=
  id.txid.length + 6

/-- `StorageKey::write`: the txid bytes at offsets 0..32, the validator id
written by `BigEndian::write_u16` at offsets 32..34, and the input index
written by `BigEndian::write_u32` at offsets 34..38.  Each byte is the
`as u8` truncation of the corresponding shifted value. -/
def storage_key_write (id : KnownSignatureIdBytes) : List Nat :=
  id.txid ++
    [id.validator_id / 256 % 256, id.validator_id % 256] ++
    [id.input / 16777216 % 256, id.input / 65536 % 256,
      id.input / 256 % 256, id.input % 256]

/-- `StorageKey::read`: the txid from bytes 0..32, the validator id from
bytes 32..34 as big-endian u16, the input from bytes 34..38 as big-endian
u32. -/
def storage_key_read (buf : List Nat) : KnownSignatureIdBytes :=
  { txid := buf.take 32
    validator_id := buf.getD 32 0 * 256 + buf.getD 33 0
    input := buf.getD 34 0 * 16777216 + buf.getD 35 0 * 65536 +
      buf.getD 36 0 * 256 + buf.getD 37 0 }

/-! ### Transaction builder (spec 4.2)

Modelled from the spec: `TransactionBuilder::into_transaction`
(details/btc/transactions.rs) is not among the given sources; only its
error type (details/error.rs `Error::InsufficientFunds`) and its tests
(details/tests.rs) are.  Per spec 4.2 the builder takes the previous
output value, the values of the additional funding inputs, the fee, the
destination address and the payload; the total input value is the sum; it
fails with `InsufficientFunds` exactly when the total is below the fee,
and otherwise emits one output paying total minus fee to the destination
plus one zero-value data output carrying the payload. -/

/-- The builder-facing error type (details/error.rs lines 20-31,
restricted to the single validated failure mode of the builder). -/
inductive BuilderError where
  | insufficientFunds
  deriving DecidableEq, Repr

/-- The unsigned anchoring transaction produced by the builder: the value
output to the destination address and the zero-value payload output. -/
structure UnsignedAnchoringTx where
  dest_addr : Nat
  out_value : Nat
  data_output_value : Nat
  payload_height : Nat
  payload_block_hash : Nat
  deriving DecidableEq, Repr

/-- Modelled from the spec: `TransactionBuilder::into_transaction`. -/
def into_transaction (prev_output_value : Nat) (funding_values : List Nat)
    (fee : Nat) (dest_addr : Nat) (height block_hash : Nat) :
    Except BuilderError UnsignedAnchoringTx :=
  let total := prev_output_value + funding_values.sum
  if total < fee then
    Except.error BuilderError.insufficientFunds
  else
    Except.ok
      { dest_addr := dest_addr
        out_value := total - fee
        data_output_value := 0
        payload_height := height
        payload_block_hash := block_hash }

/-! ### Relay synchronization task (src/handler.rs lines 142-196) -/

/-- An entry of the anchoring transaction chain, abstracted to its own
txid and the txid of its predecessor (`tx.id()` and `tx.prev_tx_id()`). -/
structure ChainTx where
  txid : Nat
  prev_txid : Nat
  deriving DecidableEq, Repr

/-- The per-transaction test of the backward scan: the predecessor has
confirmation info on the Bitcoin network (`transaction_info(prev).is_some()`)
while the transaction itself has none. -/
def tx_unsynced (confirmed : Nat → Bool) (tx : ChainTx) : Bool :=
  confirmed tx.prev_txid && !confirmed tx.txid

/-- The scan condition at chain position `j` (false past the end). -/
def unsynced_at (chain : List ChainTx) (confirmed : Nat → Bool) (j : Nat) : Bool :=
  match chain[j]? with
  | some tx => tx_unsynced confirmed tx
  | none => false

/-- The loop of `find_index_of_first_uncommitted_transaction`: indices
`(0..n).rev()`, returning the first (highest) index whose transaction
satisfies the scan condition.  The out-of-range branch is unreachable for
`n ≤ chain.length` (the source unwraps the lookup). -/
def find_uncommitted_from (chain : List ChainTx) (confirmed : Nat → Bool) :
    Nat → Option Nat
  | 0 => none
  | n + 1 =>
    match chain[n]? with
    | some tx =>
      if tx_unsynced confirmed tx then some n
      else find_uncommitted_from chain confirmed n
    | none => find_uncommitted_from chain confirmed n

/-- `SyncWithBtcRelayTask::find_index_of_first_uncommitted_transaction`. -/
def find_index_of_first_uncommitted_transaction (chain : List ChainTx)
    (confirmed : Nat → Bool) : Option Nat :=
  find_uncommitted_from chain confirmed chain.length

/-- The task cadence: `cmp::max(1, anchoring_interval / 2)`. -/
def sync_interval (anchoring_interval : Nat) : Nat :=
  max 1 (anchoring_interval / 2)

/-- `SyncWithBtcRelayTask::run`, returning the list of transactions pushed
to the relay, in the order they are pushed.  Modelled from the spec for
the relay side (details/rpc.rs is not among the given sources): the relay
accepts resubmission of already-accepted transactions as success, so every
`send_transaction` of the suffix succeeds. -/
def sync_task_run (chain : List ChainTx) (confirmed : Nat → Bool)
    (height anchoring_interval : Nat) : List ChainTx :=
  if height % sync_interval anchoring_interval == 0 then
    match find_index_of_first_uncommitted_transaction chain confirmed with
    | some index => chain.drop index
    | none => []
  else []

/-! ### Handler-level lect processing (src/handler/basic.rs, src/service.rs)

The classification `TxKind::from` lives in details/btc/transactions.rs,
which is not among the given sources; the handler embedding is therefore
parameterized by the classification function `kindOf` (per spec 3, a
transaction is Funding, Anchoring or Other) and by the script projection
`script_pubkey`. -/

/-- The three transaction kinds of `TxKind` (spec 3). -/
inductive TxKindTag where
  | funding
  | anchoring
  | other
  deriving DecidableEq, Repr

/-- `LectKind` (src/handler.rs of the 0.x line, used by the handler). -/
inductive LectKind where
  | anchoring (tx : BitcoinTx)
  | funding (tx : BitcoinTx)
  | nothing
  deriving DecidableEq, Repr

/-- `handler::error::Error` (src/handler/error.rs). -/
inductive HandlerError where
  | incorrectLect (reason : String) (tx : BitcoinTx)
  | lectNotFound
  deriving DecidableEq, Repr

/-- `AnchoringHandler::collect_lects` (src/handler/basic.rs lines
339-358): run the schema quorum reconciliation and classify the agreed
lect; an Other-kind lect becomes the returnable error
`IncorrectLect { reason: "Incorrect lect transaction", tx }`. -/
def handler_collect_lects (kindOf : BitcoinTx → TxKindTag)
    (actual_cfg : AnchoringConfig) (s : SchemaState) :
    Except HandlerError LectKind :=
  match collect_lects actual_cfg s with
  | some lectTx =>
    match kindOf lectTx with
    | TxKindTag.anchoring => Except.ok (LectKind.anchoring lectTx)
    | TxKindTag.funding => Except.ok (LectKind.funding lectTx)
    | TxKindTag.other =>
      Except.error (HandlerError.incorrectLect "Incorrect lect transaction" lectTx)
  | none => Except.ok LectKind.nothing

/-- The service error type (src/error.rs together with the `Storage`
variant matched by src/service.rs). -/
inductive ServiceError where
  | storage (e : Nat)
  | handler (e : HandlerError)
  deriving DecidableEq, Repr

/-- `AnchoringService::handle_commit` error absorption (src/service.rs
lines 73-82): storage errors propagate; every other error is logged and
the commit handler returns Ok, so the node keeps participating. -/
def handle_commit_result (r : Except ServiceError Unit) : Except Nat Unit :=
  match r with
  | Except.error (ServiceError.storage e) => Except.error e
  | Except.error _ => Except.ok ()
  | Except.ok _ => Except.ok ()

/-- The outcome of the opening section of `AnchoringHandler::current_state`
(src/handler/basic.rs lines 147-189): either a final classification, a
panic, or control passing to the lect-present continuation (lines
191-278), abstracted as `withLect`. -/
inductive CurrentStateResult where
  | rpcError
  | auditing (cfg : AnchoringConfig)
  | panicNoPrevConfig
  | panicIncorrectLect (tx : BitcoinTx)
  | recovering (prev_cfg actual_cfg : AnchoringConfig)
  | anchoringOn (cfg : AnchoringConfig)
  | withLect (lect : BitcoinTx)
  deriving DecidableEq, Repr

/-- `AnchoringHandler::current_state`, lines 147-189: import the actual
address (an RPC failure aborts the commit cycle); an auditor is Auditing;
a validator without any own lect unwraps the previous configuration
(panicking when it is absent) and classifies itself as Recovering or
Anchoring from the quorum lect of the previous configuration, panicking
on an Other-kind lect; a validator with a lect continues with it. -/
def current_state_entry (import_ok : Bool) (validator_id : Option Nat)
    (key : PublicKey) (s : SchemaState) (prev_cfg : Option AnchoringConfig)
    (kindOf : BitcoinTx → TxKindTag) (script_pubkey : BitcoinTx → Nat)
    (actual : AnchoringConfig) : CurrentStateResult :=
  if !import_ok then CurrentStateResult.rpcError
  else
    match validator_id with
    | none => CurrentStateResult.auditing actual
    | some _ =>
      match lect s key with
      | some l => CurrentStateResult.withLect l
      | none =>
        match prev_cfg with
        | none => CurrentStateResult.panicNoPrevConfig
        | some prev =>
          match collect_lects prev s with
          | some prev_lect =>
            match kindOf prev_lect with
            | TxKindTag.funding =>
              if prev.addr ≠ actual.addr then
                CurrentStateResult.recovering prev actual
              else CurrentStateResult.anchoringOn actual
            | TxKindTag.anchoring =>
              if script_pubkey prev_lect ≠ actual.addr_script_pubkey then
                CurrentStateResult.recovering prev actual
              else CurrentStateResult.anchoringOn actual
            | TxKindTag.other => CurrentStateResult.panicIncorrectLect prev_lect
          | none => CurrentStateResult.recovering prev actual

theorem find_uncommitted_some (chain : List ChainTx) (confirmed : Nat → Bool) :
    ∀ n i, find_uncommitted_from chain confirmed n = some i →
      i < n ∧ unsynced_at chain confirmed i = true ∧
        ∀ j, i < j → j < n → unsynced_at chain confirmed j = false := by
  intro n
  induction n with
  | zero => intro i h; simp [find_uncommitted_from] at h
  | succ n ih =>
    intro i h
    unfold find_uncommitted_from at h
    cases hc : chain[n]? with
    | some tx =>
      rw [hc] at h
      by_cases hu : tx_unsynced confirmed tx
      · simp [hu] at h
        subst h
        refine ⟨Nat.lt_succ_self n, by simp [unsynced_at, hc, hu], ?_⟩
        intro j hij hjn
        omega
      · simp [hu] at h
        obtain ⟨h1, h2, h3⟩ := ih i h
        refine ⟨Nat.lt_succ_of_lt h1, h2, ?_⟩
        intro j hij hjn
        by_cases hjn' : j < n
        · exact h3 j hij hjn'
        · have hje : j = n := by omega
          subst hje
          simp only [unsynced_at, hc]
          exact Bool.eq_false_iff.mpr hu
    | none =>
      rw [hc] at h
      obtain ⟨h1, h2, h3⟩ := ih i h
      refine ⟨Nat.lt_succ_of_lt h1, h2, ?_⟩
      intro j hij hjn
      by_cases hjn' : j < n
      · exact h3 j hij hjn'
      · have hje : j = n := by omega
        subst hje
        simp [unsynced_at, hc]

theorem find_uncommitted_none (chain : List ChainTx) (confirmed : Nat → Bool) :
    ∀ n, find_uncommitted_from chain confirmed n = none →
      ∀ j, j < n → unsynced_at chain confirmed j = false := by
  intro n
  induction n with
  | zero => intro h j hj; omega
  | succ n ih =>
    intro h j hj
    unfold find_uncommitted_from at h
    cases hc : chain[n]? with
    | some tx =>
      rw [hc] at h
      by_cases hu : tx_unsynced confirmed tx
      · simp [hu] at h
      · simp [hu] at h
        by_cases hjn : j < n
        · exact ih h j hjn
        · have hje : j = n := by omega
          subst hje
          simp only [unsynced_at, hc]
          exact Bool.eq_false_iff.mpr hu
    | none =>
      rw [hc] at h
      by_cases hjn : j < n
      · exact ih h j hjn
      · have hje : j = n := by omega
        subst hje
        simp [unsynced_at, hc]

/-! ### Claim theorems -/

/-- C1: for every anchoring configuration and schema state, and for any
iteration order of the vote map, `collect_lects` returns `some tx` if and
only if `tx` is currently reported as the latest lect (compared by
transaction content, not origin) by at least `cfg.majority_count()` of the
validators listed in `cfg.anchoring_keys`; in particular it returns `none`
when no transaction content reaches that count, even if every validator
reported some lect. -/
theorem C1_collect_lects_quorum_iff (cfg : AnchoringConfig) (s : SchemaState)
    (order : List (BitcoinTx × Nat)) (tx : BitcoinTx)
    (hperm : order.Perm (lectTally cfg.anchoring_keys s)) :
    collect_lects_with cfg order = some tx ↔
      cfg.majorityCount ≤ voteCount cfg.anchoring_keys s tx :=
  collect_lects_votes_iff cfg s order tx hperm

/-- Witness for C1: three validators all reporting the transaction with
content 7, quorum 3; collect_lects returns it. -/
theorem C1_collect_lects_quorum_iff_witness :
    collect_lects_with ⟨[0, 1, 2], 0, 0⟩
        (lectTally [0, 1, 2]
          ⟨[(0, [⟨0, ⟨7, 0⟩⟩]), (1, [⟨1, ⟨7, 0⟩⟩]), (2, [⟨2, ⟨7, 0⟩⟩])],
            [], [], [], []⟩) = some ⟨7, 0⟩ :=
  (C1_collect_lects_quorum_iff ⟨[0, 1, 2], 0, 0⟩
    ⟨[(0, [⟨0, ⟨7, 0⟩⟩]), (1, [⟨1, ⟨7, 0⟩⟩]), (2, [⟨2, ⟨7, 0⟩⟩])], [], [], [], []⟩
    (lectTally [0, 1, 2]
      ⟨[(0, [⟨0, ⟨7, 0⟩⟩]), (1, [⟨1, ⟨7, 0⟩⟩]), (2, [⟨2, ⟨7, 0⟩⟩])], [], [], [], []⟩)
    ⟨7, 0⟩ (List.Perm.refl _)).mpr (by decide)

/-- Counterexample for C2: at N = 3 the function returns 3*2/3+1 = 3,
which is not the ceiling of 2N/3 (that ceiling, (2*3+2)/3, equals 2). -/
theorem C2_counterexample :
    majority_count 3 = 3 * 2 / 3 + 1 ∧ majority_count 3 ≠ (2 * 3 + 2) / 3 ∧
    majority_count 128 = 1 ∧ majority_count 128 ≠ 128 * 2 / 3 + 1 := by
  decide

/-- C2 (amended): for every validator count N in the non-overflowing part
of the u8 domain (N ≤ 127), `majority_count(N)` returns `N*2/3 + 1`
computed with truncating division; this value equals `⌊2N/3⌋ + 1`, the
ceiling of `(2N+1)/3`, and it equals `⌈2N/3⌉` exactly when N is not a
multiple of 3.  For 128 ≤ N ≤ 255 the u8 product wraps, so the returned
value is `(2N mod 256)/3 + 1` rather than `N*2/3 + 1`. -/
theorem C2_majority_count_formula (n : Nat) (hn : n ≤ 127) :
    majority_count n = n * 2 / 3 + 1 ∧
    majority_count n = (2 * n + 3) / 3 ∧
    (majority_count n = (2 * n + 2) / 3 ↔ n % 3 ≠ 0) := by
  unfold majority_count
  have h2 : n * 2 % 256 = n * 2 := Nat.mod_eq_of_lt (by omega)
  rw [h2]
  have hn3 : n = 3 * (n / 3) + n % 3 := (Nat.div_add_mod n 3).symm
  have hr : n % 3 = 0 ∨ n % 3 = 1 ∨ n % 3 = 2 := by omega
  refine ⟨rfl, ?_, ?_, ?_⟩
  · rcases hr with hr | hr | hr <;> omega
  · intro he h0
    rcases hr with hr | hr | hr <;> omega
  · intro hne
    rcases hr with hr | hr | hr <;> omega

/-- Witness for C2 (amended) at N = 4, a count that is not a multiple of
3, where all three characterizations agree. -/
theorem C2_majority_count_formula_witness :
    majority_count 4 = 4 * 2 / 3 + 1 ∧
    majority_count 4 = (2 * 4 + 3) / 3 ∧
    majority_count 4 = (2 * 4 + 2) / 3 :=
  ⟨(C2_majority_count_formula 4 (by decide)).1,
    (C2_majority_count_formula 4 (by decide)).2.1,
    (C2_majority_count_formula 4 (by decide)).2.2.mpr (by decide)⟩

/-- C3: `add_lect` appends exactly the entry `(msg_hash, tx)` at the end
of the lect list of the given validator (so every previously stored entry
of every validator keeps its value and position and nothing is removed,
overwritten or reordered), increases that list's length by exactly one,
stores `tx` under its txid in `known_txs`, and stores the new entry's
index under the txid in the validator's `lect_indexes`. -/
theorem C3_add_lect_appends (s : SchemaState) (k k' : PublicKey)
    (tx : BitcoinTx) (h : Hash) :
    lectsOf (add_lect s k tx h) k' =
      (if k' = k then lectsOf s k ++ [⟨h, tx⟩] else lectsOf s k') ∧
    (lectsOf (add_lect s k tx h) k).length = (lectsOf s k).length + 1 ∧
    mget (add_lect s k tx h).known_txs tx.id = some tx ∧
    mget (lectIndexesOf (add_lect s k tx h) k) tx.id =
      some (lectsOf s k).length := by
  have hself : lectsOf (add_lect s k tx h) k = lectsOf s k ++ [⟨h, tx⟩] := by
    simp [add_lect, lectsOf, mget_mput_same]
  refine ⟨?_, ?_, ?_, ?_⟩
  · by_cases hk : k' = k
    · subst hk
      rw [if_pos rfl]
      exact hself
    · rw [if_neg hk]
      simp only [add_lect, lectsOf]
      rw [mget_mput_other _ _ _ _ hk]
  · rw [hself]
    simp
  · simp [add_lect, mget_mput_same]
  · simp [add_lect, lectIndexesOf, lectsOf, mget_mput_same]

/-- C4: if the `KnownSignatureId` of the message is already known,
`add_known_signature` returns the signature-differs condition and leaves
the whole schema unchanged; otherwise it appends the message to the
signature list of its normalized txid and records it as known; hence
submitting the identical signature twice yields exactly the state of
submitting it once. -/
theorem C4_add_known_signature_idempotent (s : SchemaState)
    (msg : MsgAnchoringSignature) :
    ((mget s.known_signatures (knownSignatureIdOf msg)).isSome = true →
      add_known_signature s msg =
        (Except.error ValidateError.signatureDifferent, s)) ∧
    ((mget s.known_signatures (knownSignatureIdOf msg)).isSome = false →
      add_known_signature s msg =
        (Except.ok (),
          { s with
            signatures_table :=
              mput s.signatures_table msg.tx.nid
                (signaturesOf s msg.tx.nid ++ [msg])
            known_signatures :=
              mput s.known_signatures (knownSignatureIdOf msg) msg })) ∧
    (add_known_signature (add_known_signature s msg).2 msg).2 =
      (add_known_signature s msg).2 := by
  refine ⟨?_, ?_, ?_⟩
  · intro hp
    simp [add_known_signature, hp]
  · intro hp
    simp [add_known_signature, hp]
  · by_cases hp : (mget s.known_signatures (knownSignatureIdOf msg)).isSome
    · simp [add_known_signature, hp]
    · simp [add_known_signature, hp, mget_mput_same]

/-- Witness for C4: an empty schema accepts a first signature message and
the second identical submission leaves the state unchanged. -/
theorem C4_add_known_signature_idempotent_witness :
    (add_known_signature ⟨[], [], [], [], []⟩ ⟨⟨5, 1⟩, 0, 0, 9⟩).1 =
      Except.ok () ∧
    (add_known_signature
        (add_known_signature ⟨[], [], [], [], []⟩ ⟨⟨5, 1⟩, 0, 0, 9⟩).2
        ⟨⟨5, 1⟩, 0, 0, 9⟩).2 =
      (add_known_signature ⟨[], [], [], [], []⟩ ⟨⟨5, 1⟩, 0, 0, 9⟩).2 := by
  have hok :=
    (C4_add_known_signature_idempotent ⟨[], [], [], [], []⟩
      ⟨⟨5, 1⟩, 0, 0, 9⟩).2.1 (by decide)
  refine ⟨by rw [hok], ?_⟩
  exact (C4_add_known_signature_idempotent ⟨[], [], [], [], []⟩
    ⟨⟨5, 1⟩, 0, 0, 9⟩).2.2

/-- C5 (spec-modelled builder): building the unsigned anchoring
transaction fails with `InsufficientFunds` exactly when the previous
output value plus the sum of the funding-input values is below the fee,
and otherwise succeeds with one output paying total minus fee to the
destination address and a zero-value data output carrying the payload. -/
theorem C5_into_transaction_insufficient_funds (prev_output_value : Nat)
    (funding_values : List Nat) (fee dest_addr height block_hash : Nat) :
    (into_transaction prev_output_value funding_values fee dest_addr height
        block_hash = Except.error BuilderError.insufficientFunds ↔
      prev_output_value + funding_values.sum < fee) ∧
    (¬prev_output_value + funding_values.sum < fee →
      into_transaction prev_output_value funding_values fee dest_addr height
          block_hash =
        Except.ok
          { dest_addr := dest_addr
            out_value := prev_output_value + funding_values.sum - fee
            data_output_value := 0
            payload_height := height
            payload_block_hash := block_hash }) := by
  by_cases hc : prev_output_value + funding_values.sum < fee <;>
    simp [into_transaction, hc]

/-- Witness for C5: a funded build succeeds with output 3000 = 4000 minus
fee 1000, and an underfunded build (500 + 300 < 1000) fails. -/
theorem C5_into_transaction_insufficient_funds_witness :
    into_transaction 4000 [] 1000 7 2 77 =
      Except.ok
        { dest_addr := 7, out_value := 3000, data_output_value := 0,
          payload_height := 2, payload_block_hash := 77 } ∧
    into_transaction 500 [300] 1000 7 2 77 =
      Except.error BuilderError.insufficientFunds := by
  constructor
  · have h :=
      (C5_into_transaction_insufficient_funds 4000 [] 1000 7 2 77).2 (by decide)
    simpa using h
  · exact (C5_into_transaction_insufficient_funds 500 [300] 1000 7 2 77).1.mpr
      (by decide)

/-- Counterexample for C6: with a single-validator configuration whose
quorum lect has kind Other, `AnchoringHandler::collect_lects` does not
abort fatally: it returns the runtime error
`IncorrectLect { reason: "Incorrect lect transaction", tx }`, and
`handle_commit` absorbs that error (logs it and returns Ok), so this
lect-processing path handles an Other-kind transaction as a recoverable
runtime condition. -/
theorem C6_counterexample :
    handler_collect_lects (fun _ => TxKindTag.other) ⟨[0], 0, 0⟩
        ⟨[(0, [⟨0, ⟨42, 0⟩⟩])], [], [], [], []⟩ =
      Except.error
        (HandlerError.incorrectLect "Incorrect lect transaction" ⟨42, 0⟩) ∧
    handle_commit_result
        (Except.error (ServiceError.handler
          (HandlerError.incorrectLect "Incorrect lect transaction" ⟨42, 0⟩))) =
      Except.ok () := by
  exact ⟨rfl, rfl⟩

/-- C6 (amended): an Other-kind transaction is never accepted as a lect:
in `current_state`, `collect_lects_for_validator` and the Broken arm of
`after_commit` it panics, but in `AnchoringHandler::collect_lects` a
quorum lect of kind Other is reported as the returnable error
`IncorrectLect` (never `Ok`), which `handle_commit` treats as a
recoverable condition (logged, processing continues) rather than a fatal
abort. -/
theorem C6_other_lect_never_accepted (kindOf : BitcoinTx → TxKindTag)
    (cfg : AnchoringConfig) (s : SchemaState) (tx : BitcoinTx)
    (hl : collect_lects cfg s = some tx) (ho : kindOf tx = TxKindTag.other) :
    handler_collect_lects kindOf cfg s =
      Except.error (HandlerError.incorrectLect "Incorrect lect transaction" tx) ∧
    handle_commit_result
        (Except.error (ServiceError.handler
          (HandlerError.incorrectLect "Incorrect lect transaction" tx))) =
      Except.ok () := by
  refine ⟨?_, rfl⟩
  simp [handler_collect_lects, hl, ho]

/-- Witness for C6 (amended) at a concrete Other-kind quorum lect. -/
theorem C6_other_lect_never_accepted_witness :
    handler_collect_lects (fun _ => TxKindTag.other) ⟨[3], 1, 1⟩
        ⟨[(3, [⟨0, ⟨43, 0⟩⟩])], [], [], [], []⟩ =
      Except.error
        (HandlerError.incorrectLect "Incorrect lect transaction" ⟨43, 0⟩) ∧
    handle_commit_result
        (Except.error (ServiceError.handler
          (HandlerError.incorrectLect "Incorrect lect transaction" ⟨43, 0⟩))) =
      Except.ok () :=
  C6_other_lect_never_accepted (fun _ => TxKindTag.other) ⟨[3], 1, 1⟩
    ⟨[(3, [⟨0, ⟨43, 0⟩⟩])], [], [], [], []⟩ ⟨43, 0⟩ (by decide) rfl

/-- C7: whenever the relay sync task fires (the height is a multiple of
the sync cadence), it scans the anchoring chain from the most recent
entry backward; if it finds an index whose transaction has a confirmed
predecessor but is itself unconfirmed (and no later index has that
property), it resubmits exactly that transaction and every subsequent one
in ascending order; if no index qualifies it resubmits nothing. -/
theorem C7_sync_task_resubmits_suffix (chain : List ChainTx)
    (confirmed : Nat → Bool) (height anchoring_interval : Nat)
    (hfire : height % sync_interval anchoring_interval = 0) :
    (∀ i, find_index_of_first_uncommitted_transaction chain confirmed = some i →
      sync_task_run chain confirmed height anchoring_interval = chain.drop i ∧
      i < chain.length ∧ unsynced_at chain confirmed i = true ∧
      ∀ j, i < j → j < chain.length → unsynced_at chain confirmed j = false) ∧
    (find_index_of_first_uncommitted_transaction chain confirmed = none →
      sync_task_run chain confirmed height anchoring_interval = [] ∧
      ∀ j, j < chain.length → unsynced_at chain confirmed j = false) := by
  constructor
  · intro i hf
    refine ⟨?_, find_uncommitted_some chain confirmed chain.length i hf⟩
    unfold sync_task_run
    simp [hfire, hf]
  · intro hf
    refine ⟨?_, find_uncommitted_none chain confirmed chain.length hf⟩
    unfold sync_task_run
    simp [hfire, hf]

/-- Witness for C7: a two-entry chain whose second transaction has a
confirmed predecessor but no confirmation of its own; the task resubmits
exactly the suffix starting there. -/
theorem C7_sync_task_resubmits_suffix_witness :
    sync_task_run [⟨10, 5⟩, ⟨20, 10⟩] (fun n => n == 5 || n == 10) 0 4 =
      [⟨20, 10⟩] ∧
    unsynced_at [⟨10, 5⟩, ⟨20, 10⟩] (fun n => n == 5 || n == 10) 1 = true := by
  have h :=
    (C7_sync_task_resubmits_suffix [⟨10, 5⟩, ⟨20, 10⟩]
      (fun n => n == 5 || n == 10) 0 4 (by decide)).1 1 (by decide)
  exact ⟨h.1, h.2.2.1⟩

/-- C8: the `StorageKey` encoding of `KnownSignatureId` is exactly 38
bytes: the 32 txid bytes at offsets 0..32, the validator id as big-endian
16-bit at offsets 32..34, the input index as big-endian 32-bit at offsets
34..38; and `read` inverts `write`. -/
theorem C8_storage_key_layout_roundtrip (id : KnownSignatureIdBytes)
    (hlen : id.txid.length = 32) (hv : id.validator_id < 65536)
    (hi : id.input < 4294967296) :
    storage_key_size id = 38 ∧
    (storage_key_write id).length = 38 ∧
    (storage_key_write id).take 32 = id.txid ∧
    (storage_key_write id).drop 32 =
      [id.validator_id / 256, id.validator_id % 256, id.input / 16777216,
        id.input / 65536 % 256, id.input / 256 % 256, id.input % 256] ∧
    (storage_key_write id).getD 32 0 * 256 + (storage_key_write id).getD 33 0 =
      id.validator_id ∧
    (storage_key_write id).getD 34 0 * 16777216 +
        (storage_key_write id).getD 35 0 * 65536 +
        (storage_key_write id).getD 36 0 * 256 +
        (storage_key_write id).getD 37 0 = id.input ∧
    storage_key_read (storage_key_write id) = id := by
  obtain ⟨txid, v, i⟩ := id
  simp only at hlen hv hi
  have e1 : v / 256 % 256 = v / 256 := Nat.mod_eq_of_lt (by omega)
  have e2 : i / 16777216 % 256 = i / 16777216 := Nat.mod_eq_of_lt (by omega)
  have hw : storage_key_write ⟨txid, v, i⟩ =
      txid ++ [v / 256 % 256, v % 256, i / 16777216 % 256, i / 65536 % 256,
        i / 256 % 256, i % 256] := by
    simp [storage_key_write]
  have htake : (storage_key_write ⟨txid, v, i⟩).take 32 = txid := by
    rw [hw, ← hlen]
    exact List.take_left _ _
  have hdrop : (storage_key_write ⟨txid, v, i⟩).drop 32 =
      [v / 256 % 256, v % 256, i / 16777216 % 256, i / 65536 % 256,
        i / 256 % 256, i % 256] := by
    rw [hw, ← hlen]
    exact List.drop_left _ _
  have hgetD : ∀ n d : Nat, 32 ≤ n →
      (storage_key_write ⟨txid, v, i⟩).getD n d =
        [v / 256 % 256, v % 256, i / 16777216 % 256, i / 65536 % 256,
          i / 256 % 256, i % 256].getD (n - 32) d := by
    intro n d hn
    have h32 : txid.length ≤ n := by omega
    rw [hw]
    simp [List.getD, List.getElem?_append_right h32, hlen]
  refine ⟨?_, ?_, htake, ?_, ?_, ?_, ?_⟩
  · simp [storage_key_size, hlen]
  · rw [hw]
    simp [hlen]
  · rw [hdrop, e1, e2]
  · rw [hgetD 32 0 (by omega), hgetD 33 0 (by omega)]
    simp [List.getD]
    omega
  · rw [hgetD 34 0 (by omega), hgetD 35 0 (by omega), hgetD 36 0 (by omega),
      hgetD 37 0 (by omega)]
    simp [List.getD]
    omega
  · simp only [storage_key_read, KnownSignatureIdBytes.mk.injEq]
    refine ⟨htake, ?_, ?_⟩
    · rw [hgetD 32 0 (by omega), hgetD 33 0 (by omega)]
      simp [List.getD]
      omega
    · rw [hgetD 34 0 (by omega), hgetD 35 0 (by omega), hgetD 36 0 (by omega),
        hgetD 37 0 (by omega)]
      simp [List.getD]
      omega

/-- Witness for C8 at a concrete id with txid bytes 0..31, validator id
515 and input 16909060. -/
theorem C8_storage_key_layout_roundtrip_witness :
    storage_key_read (storage_key_write ⟨List.range 32, 515, 16909060⟩) =
      ⟨List.range 32, 515, 16909060⟩ ∧
    (storage_key_write ⟨List.range 32, 515, 16909060⟩).length = 38 :=
  ⟨(C8_storage_key_layout_roundtrip ⟨List.range 32, 515, 16909060⟩
      (by decide) (by decide) (by decide)).2.2.2.2.2.2,
    (C8_storage_key_layout_roundtrip ⟨List.range 32, 515, 16909060⟩
      (by decide) (by decide) (by decide)).2.1⟩

/-- C9: although `collect_lects` tallies votes in a `HashMap` and selects
a maximum through iteration-order-dependent `max_by_key`, its result does
not depend on the iteration order: whenever the quorum threshold exceeds
half the number of configured keys (which the threshold formula always
guarantees), at most one transaction content can reach the quorum, so any
two iteration orders of the same vote map give equal results. -/
theorem C9_collect_lects_order_independent (cfg : AnchoringConfig)
    (s : SchemaState) (order1 order2 : List (BitcoinTx × Nat))
    (h1 : order1.Perm (lectTally cfg.anchoring_keys s))
    (h2 : order2.Perm (lectTally cfg.anchoring_keys s))
    (_hmaj : cfg.anchoring_keys.length < 2 * cfg.majorityCount) :
    collect_lects_with cfg order1 = collect_lects_with cfg order2 := by
  cases hres : collect_lects_with cfg order1 with
  | some tx =>
    have hv := (collect_lects_votes_iff cfg s order1 tx h1).mp hres
    exact ((collect_lects_votes_iff cfg s order2 tx h2).mpr hv).symm
  | none =>
    cases hres2 : collect_lects_with cfg order2 with
    | none => rfl
    | some tx =>
      have hv := (collect_lects_votes_iff cfg s order2 tx h2).mp hres2
      have hcon := (collect_lects_votes_iff cfg s order1 tx h1).mpr hv
      rw [hres] at hcon
      exact absurd hcon (by simp)

/-- Witness for C9: the canonical tally order and its reverse give the
same result on a three-validator state. -/
theorem C9_collect_lects_order_independent_witness :
    collect_lects_with ⟨[1, 2, 3], 0, 0⟩
        (lectTally [1, 2, 3]
          ⟨[(1, [⟨0, ⟨8, 0⟩⟩]), (2, [⟨0, ⟨8, 0⟩⟩]), (3, [⟨0, ⟨9, 0⟩⟩])],
            [], [], [], []⟩) =
      collect_lects_with ⟨[1, 2, 3], 0, 0⟩
        ((lectTally [1, 2, 3]
          ⟨[(1, [⟨0, ⟨8, 0⟩⟩]), (2, [⟨0, ⟨8, 0⟩⟩]), (3, [⟨0, ⟨9, 0⟩⟩])],
            [], [], [], []⟩).reverse) :=
  C9_collect_lects_order_independent ⟨[1, 2, 3], 0, 0⟩
    ⟨[(1, [⟨0, ⟨8, 0⟩⟩]), (2, [⟨0, ⟨8, 0⟩⟩]), (3, [⟨0, ⟨9, 0⟩⟩])],
      [], [], [], []⟩
    _ _ (List.Perm.refl _) ((lectTally _ _).reverse_perm) (by decide)

/-- C10: on a validator node whose own lect list is empty, `current_state`
unconditionally unwraps the previous anchoring configuration before
classifying the node as Recovering or Anchoring, so on that branch it
panics exactly when the host reports no previous configuration; it is
total on the lect-less branch only under the precondition that a previous
configuration exists. -/
theorem C10_current_state_lectless_unwraps_prev (import_ok : Bool) (v : Nat)
    (key : PublicKey) (s : SchemaState) (prev_cfg : Option AnchoringConfig)
    (kindOf : BitcoinTx → TxKindTag) (script_pubkey : BitcoinTx → Nat)
    (actual : AnchoringConfig) (him : import_ok = true)
    (hlect : lect s key = none) :
    (current_state_entry import_ok (some v) key s prev_cfg kindOf script_pubkey
        actual = CurrentStateResult.panicNoPrevConfig) ↔ prev_cfg = none := by
  subst him
  unfold current_state_entry
  rw [hlect]
  cases prev_cfg with
  | none => simp
  | some prev =>
    simp only [Bool.not_true, Bool.false_eq_true, if_false]
    cases hc : collect_lects prev s with
    | none => simp
    | some prev_lect =>
      cases hk : kindOf prev_lect with
      | funding =>
        by_cases ha : prev.addr ≠ actual.addr <;> simp [ha, hk]
      | anchoring =>
        by_cases ha : script_pubkey prev_lect ≠ actual.addr_script_pubkey <;>
          simp [ha, hk]
      | other => simp [hk]

/-- Witness for C10: a validator with an empty schema and no previous
configuration hits the panic. -/
theorem C10_current_state_lectless_unwraps_prev_witness :
    current_state_entry true (some 0) 0 ⟨[], [], [], [], []⟩ none
        (fun _ => TxKindTag.funding) (fun _ => 0) ⟨[], 0, 0⟩ =
      CurrentStateResult.panicNoPrevConfig :=
  (C10_current_state_lectless_unwraps_prev true 0 0 ⟨[], [], [], [], []⟩ none
    (fun _ => TxKindTag.funding) (fun _ => 0) ⟨[], 0, 0⟩ rfl (by decide)).mpr rfl
